import Mathlib

/-!
# Verification of the schema-mapper-cleaner core against its specification

Shallow embedding of the repository's core functions
(`src/mapping.py`, `src/cleaner.py`, `src/persistence.py`, `src/app.py`)
as executable Lean definitions over `List Char` / `String`, followed by
theorems settling the specification claims.

Modelling conventions:
* Python strings are `String` (= a wrapped `List Char`); all character-level
  work is done on `List Char`.  Character classes (`\d`, `\w`, `\s`,
  `str.lower`, `str.upper`) are modelled at the ASCII level, which covers
  every character class the cleaning/matching code distinguishes.
* Python floats that the numeric cleaners produce are modelled as `ℚ`
  (every value appearing in the theorems below is exactly representable
  as an IEEE double, so no rounding is lost).
* `rapidfuzz.fuzz.ratio` is an external library function; the matching
  functions are parametrised over an arbitrary `ratio : String → String → ℚ`
  oracle (0–100 scale), so every theorem proved about them holds for the
  real similarity function in particular.
* `np.nan` ("unparsable" marker of the numeric cleaners) is modelled by
  `Option.none`; Python `dict`s are association lists (first binding wins,
  as Python keys are unique).
-/

namespace SchemaMapper
/-! ## ASCII character model (Python `str.lower`, `str.upper`, `\w`, `\s`, `\d`) -/

/-- Python `str.lower` restricted to ASCII: map `'A'..'Z'` to `'a'..'z'`. -/
def pyLower (c : Char) : Char :=
  if 'A' ≤ c ∧ c ≤ 'Z' then Char.ofNat (c.toNat + 32) else c

/-- Python `str.upper` restricted to ASCII: map `'a'..'z'` to `'A'..'Z'`. -/
def pyUpper (c : Char) : Char :=
  if 'a' ≤ c ∧ c ≤ 'z' then Char.ofNat (c.toNat - 32) else c

/-- Regex class `\w` (ASCII): letters, digits and underscore. -/
def isWordChar (c : Char) : Bool :=
  (('a' ≤ c ∧ c ≤ 'z') ∨ ('A' ≤ c ∧ c ≤ 'Z') ∨ ('0' ≤ c ∧ c ≤ '9') ∨ c = '_')

/-- Regex class `\s` / `str.strip` characters (ASCII): space, tab, LF, VT, FF, CR. -/
def isSpaceChar (c : Char) : Bool :=
  (c = ' ' ∨ c = '\t' ∨ c = '\n' ∨ c = '\x0b' ∨ c = '\x0c' ∨ c = '\r')

/-- Regex class `\d` (ASCII): decimal digits. -/
def isDigitChar (c : Char) : Bool := ('0' ≤ c ∧ c ≤ '9')

/-! ## `HeaderMapper._normalize_header` (src/mapping.py, lines 153–163)

The Python function performs, in order:
lower-case; `re.sub(r'[^\w\s]', ' ', ·)`; `re.sub(r'\s+', ' ', ·)`; `str.strip()`.
Each stage is embedded separately below and composed in `normalizeL`. -/

/-- One character of `re.sub(r'[^\w\s]', ' ', s)`: a character that is neither
a word character nor whitespace becomes a single space. -/
def subSpecial (c : Char) : Char :=
  if isWordChar c || isSpaceChar c then c else ' '

/-- `re.sub(r'\s+', ' ', s)`: every maximal run of whitespace becomes one `' '`.
A whitespace character merges with the single `' '` that the following
whitespace run (if any) has already been collapsed to. -/
def collapseWs : List Char → List Char
  | [] => []
  | c :: rest =>
    let r := collapseWs rest
    if isSpaceChar c then
      match r with
      | [] => [' ']
      | b :: t => if b = ' ' then b :: t else ' ' :: b :: t
    else c :: r

/-- `str.lstrip()` (whitespace from the left). -/
def lstripWs (l : List Char) : List Char := l.dropWhile isSpaceChar

/-- `str.rstrip()` (whitespace from the right), implemented structurally. -/
def rstripWs : List Char → List Char
  | [] => []
  | c :: rest =>
    match rstripWs rest with
    | [] => if isSpaceChar c then [] else [c]
    | r => c :: r

/-- `str.strip()` = lstrip then rstrip. -/
def stripWs (l : List Char) : List Char := rstripWs (lstripWs l)

/-- `HeaderMapper._normalize_header`, character-list level. -/
def normalizeL (l : List Char) : List Char :=
  stripWs (collapseWs ((l.map pyLower).map subSpecial))

/-- `HeaderMapper._normalize_header` on `String`s. -/
def normalizeHeader (s : String) : String := ⟨normalizeL s.data⟩

/-- "Collapsed" well-formedness: every whitespace character is `' '`,
and no two adjacent characters are both whitespace. -/
def spacesOk : List Char → Bool
  | [] => true
  | [c] => !isSpaceChar c || (c == ' ')
  | c :: d :: rest =>
    (!isSpaceChar c || ((c == ' ') && !isSpaceChar d)) && spacesOk (d :: rest)

/-! ## `DataCleaner._clean_phone` and `DataCleaner._validate_phone`
(src/cleaner.py, lines 152–167 and 257–260).

`_clean_phone` receives a non-null value; `str(value)` is the input string.
`re.sub(r'\D', '', ·)` is `List.filter isDigitChar`.  Python slices
`d[:2]`, `d[2:7]`, `d[7:]`, `d[-10:-5]`, `d[-5:]` are expressed with
`take`/`drop` (for `len d ≥ 10`, `d[-10:-5] = (d.drop (len-10)).take 5` and
`d[-5:] = d.drop (len-5)`). -/

/-- `DataCleaner._clean_phone`, character-list level. -/
def cleanPhoneL (l : List Char) : List Char :=
  let digits0 := l.filter isDigitChar
  let digitsOnly :=
    if digits0.length = 10 then '9' :: '1' :: digits0
    else if digits0.length = 11 ∧ digits0.head? = some '0' then '9' :: '1' :: digits0.tail
    else digits0
  if digitsOnly.length = 12 then
    '+' :: (digitsOnly.take 2 ++ ' ' :: ((digitsOnly.drop 2).take 5 ++ ' ' :: digitsOnly.drop 7))
  else if 10 ≤ digitsOnly.length then
    '+' :: '9' :: '1' :: ' ' ::
      ((digitsOnly.drop (digitsOnly.length - 10)).take 5 ++
        ' ' :: digitsOnly.drop (digitsOnly.length - 5))
  else digitsOnly

/-- `DataCleaner._clean_phone` on `String`s. -/
def cleanPhone (s : String) : String := ⟨cleanPhoneL s.data⟩

/-- `DataCleaner._validate_phone`: `re.match(r'^\+\d{1,3} \d{5} \d{5}$', s)`,
implemented as a direct matcher (maximal munch agrees with the regex here
because `\d` never matches `' '`). -/
def validatePhoneL (l : List Char) : Bool :=
  match l with
  | [] => false
  | c :: rest =>
    if c = '+' then
      let cc := rest.takeWhile isDigitChar
      let r2 := rest.dropWhile isDigitChar
      decide (1 ≤ cc.length) && decide (cc.length ≤ 3) &&
      (match r2 with
       | [] => false
       | c2 :: r3 =>
         if c2 = ' ' then
           (r3.take 5).all isDigitChar && decide ((r3.take 5).length = 5) &&
           (match r3.drop 5 with
            | [] => false
            | c4 :: r4 =>
              if c4 = ' ' then r4.all isDigitChar && decide (r4.length = 5) else false)
         else false)
    else false

/-- `DataCleaner._validate_phone` on `String`s. -/
def validatePhone (s : String) : Bool := validatePhoneL s.data

/-- The phone cleaning rule as worded in the specification:
case analysis on the number of digits of the *input*. -/
def phoneSpecL (l : List Char) : List Char :=
  let d := l.filter isDigitChar
  if d.length = 10 then
    -- domestic: prefix country code 91, then the 12-digit +CC DDDDD DDDDD format
    let a := '9' :: '1' :: d
    '+' :: (a.take 2 ++ ' ' :: ((a.drop 2).take 5 ++ ' ' :: a.drop 7))
  else if d.length = 11 ∧ d.head? = some '0' then
    -- drop the leading zero, prefix 91, 12-digit format
    let a := '9' :: '1' :: d.tail
    '+' :: (a.take 2 ++ ' ' :: ((a.drop 2).take 5 ++ ' ' :: a.drop 7))
  else if d.length = 12 then
    '+' :: (d.take 2 ++ ' ' :: ((d.drop 2).take 5 ++ ' ' :: d.drop 7))
  else if 10 ≤ d.length then
    -- any other value of ≥ 10 digits: format the last 10 digits as +91 DDDDD DDDDD
    '+' :: '9' :: '1' :: ' ' ::
      ((d.drop (d.length - 10)).take 5 ++ ' ' :: d.drop (d.length - 5))
  else d

/-- `phoneSpecL` on `String`s. -/
def phoneSpec (s : String) : String := ⟨phoneSpecL s.data⟩

/-! ## `DataCleaner._clean_tax_id` and `DataCleaner._clean_postal_code`
(src/cleaner.py, lines 192–200).

`_clean_tax_id`:  `re.sub(r'[^\w]', '', str(value).strip().upper())`
(strip, upper-case, then drop non-word characters).
`_clean_postal_code`: `re.sub(r'[^\w]', '', str(value).strip()).upper()`
(strip, drop non-word characters, then upper-case).
Note `[^\w]` removes non-*word* characters: letters, digits **and underscore**
are kept. -/

/-- `DataCleaner._clean_tax_id`, character-list level. -/
def cleanTaxIdL (l : List Char) : List Char :=
  ((stripWs l).map pyUpper).filter isWordChar

/-- `DataCleaner._clean_postal_code`, character-list level. -/
def cleanPostalCodeL (l : List Char) : List Char :=
  ((stripWs l).filter isWordChar).map pyUpper

/-- `DataCleaner._clean_tax_id` on `String`s. -/
def cleanTaxId (s : String) : String := ⟨cleanTaxIdL s.data⟩

/-- `DataCleaner._clean_postal_code` on `String`s. -/
def cleanPostalCode (s : String) : String := ⟨cleanPostalCodeL s.data⟩

/-- ASCII alphanumeric (letter or digit — *no* underscore). -/
def isAlnumChar (c : Char) : Bool :=
  (('a' ≤ c ∧ c ≤ 'z') ∨ ('A' ≤ c ∧ c ≤ 'Z') ∨ ('0' ≤ c ∧ c ≤ '9'))

/-- The claim's description of the tax-id/postal cleaners: the subsequence of
*alphanumeric* characters of the input, upper-cased. -/
def alnumUpperSpec (s : String) : String :=
  ⟨(s.data.filter isAlnumChar).map pyUpper⟩

/-- A word character that is not a lower-case letter
(upper-case letter, digit, or underscore). -/
def isUpperWordChar (c : Char) : Bool :=
  isWordChar c && !(decide ('a' ≤ c ∧ c ≤ 'z'))

/-! ## `DataCleaner._clean_number` / `_clean_currency` (src/cleaner.py, 202–229)

Both functions run `re.sub(r'[^\d.-]', '', str(value).strip())` and then
`float(·)`, returning `np.nan` on `ValueError`.  The result is modelled as
`Option ℚ` (`none` = `np.nan`).  After the strip the string contains only
digits, `'.'` and `'-'`, so Python's `float` grammar restricted to that
alphabet is: an optional leading `'-'`, then either digits optionally
followed by `'.'` and optional digits, or `'.'` followed by digits. -/

/-- Characters kept by `re.sub(r'[^\d.-]', '', ·)`. -/
def isNumKeptChar (c : Char) : Bool := isDigitChar c || c = '.' || c = '-'

/-- `re.sub(r'[^\d.-]', '', str(value).strip())`. -/
def numStrip (l : List Char) : List Char := (stripWs l).filter isNumKeptChar

/-- Numeric value of a digit string (most significant first). -/
def digitsNat (l : List Char) : Nat :=
  l.foldl (fun acc c => 10 * acc + (c.toNat - 48)) 0

/-- Python `float` on an unsigned string over the alphabet `[0-9.]`:
`digits [ '.' digits? ]` or `'.' digits`.  The numeric value
`int + frac/10^k` is exact; the doubles arising in the theorems below are
exactly representable, so nothing is lost by computing in `ℚ`. -/
def pyParseUnsigned (l : List Char) : Option ℚ :=
  let intPart := l.takeWhile isDigitChar
  let rest := l.dropWhile isDigitChar
  match rest with
  | [] => if intPart.isEmpty then none else some (digitsNat intPart : ℚ)
  | c :: frac =>
    if c = '.' then
      if frac.all isDigitChar && !(intPart.isEmpty && frac.isEmpty) then
        some ((digitsNat intPart : ℚ) + (digitsNat frac : ℚ) / (10 : ℚ) ^ frac.length)
      else none
    else none

/-- Python `float(·)` on a string over the alphabet `[0-9.-]`
(`ValueError` = `none`). -/
def pyParseFloat (l : List Char) : Option ℚ :=
  if l.head? = some '-' then (pyParseUnsigned l.tail).map Neg.neg
  else pyParseUnsigned l

/-- `DataCleaner._clean_number` (= `_clean_currency`): strip, drop everything
but `[0-9.-]`, parse as a float; `none` models the `np.nan` fallback. -/
def cleanNumber (s : String) : Option ℚ := pyParseFloat (numStrip s.data)

/-! ## `HeaderMapper.suggest_mappings` / `_find_best_match`
(src/mapping.py, lines 12–151)

`fuzz.ratio` comes from the external `rapidfuzz` library; everything below is
parametric in an arbitrary score oracle `ratio : String → String → ℚ`
(0–100 scale), so the theorems hold whatever that library returns.
Python `dict`s are association lists; `dict` lookup is `List.lookup`
(keys are unique in a `dict`, duplicates never arise). -/

/-- A mapping suggestion `{mapped_field, confidence, method}`. -/
structure Suggestion where
  mapped_field : String
  confidence : ℚ
  method : String
deriving DecidableEq, Repr

/-- `HeaderMapper.common_aliases` (src/mapping.py, lines 14–53), verbatim. -/
def commonAliases : List (String × List String) :=
  [("order_id", ["order id", "order no", "reference"]),
   ("order_date", ["orderdate", "ordered_on"]),
   ("customer_id", ["cust id", "client_ref"]),
   ("customer_name", ["customer", "client_name"]),
   ("email", ["contact", "email address", "e-mail", "mail"]),
   ("phone", ["mobile", "phone number", "telephone", "contact number"]),
   ("billing_address", ["bill addr", "bill_to"]),
   ("shipping_address", ["ship addr", "ship_to"]),
   ("city", ["town", "locality", "city"]),
   ("state", ["state/province", "region"]),
   ("postal_code", ["zip", "zip code", "postcode", "postal", "zip/postal", "pin"]),
   ("country", ["country/region", "nation"]),
   ("product_sku", ["sku", "stock_code"]),
   ("product_name", ["item", "desc"]),
   ("category", ["cat."]),
   ("subcategory", ["subcat"]),
   ("quantity", ["qty"]),
   ("unit_price", ["price", "unit price"]),
   ("currency", ["currency"]),
   ("discount_pct", ["disc%", "discount"]),
   ("tax_pct", ["tax%", "gst"]),
   ("shipping_fee", ["ship fee", "logistics_fee"]),
   ("total_amount", ["total", "grand_total"]),
   ("tax_id", ["reg no", "gstin"]),
   ("SKIP", ["coupon_code"])]

/-- Python `str.lower` on a whole string. -/
def pyLowerStr (s : String) : String := ⟨s.data.map pyLower⟩

/-- Python `str.split()` (split on whitespace runs, dropping empty pieces),
with an accumulator holding the current word reversed. -/
def pySplitAux : List Char → List Char → List (List Char)
  | [], acc => if acc.isEmpty then [] else [acc.reverse]
  | c :: rest, acc =>
    if isSpaceChar c then
      if acc.isEmpty then pySplitAux rest [] else acc.reverse :: pySplitAux rest []
    else pySplitAux rest (c :: acc)

/-- `set(s.split())`: the distinct whitespace-separated tokens of `s`. -/
def tokenSet (s : String) : List String :=
  ((pySplitAux s.data []).map String.mk).dedup

/-- The running best `(best_match, best_score, best_method)`;
`best_score` starts at `0` and an update needs `score > best_score`. -/
def updateBest (best : Option (String × ℚ × String)) (f : String) (sc : ℚ)
    (m : String) : Option (String × ℚ × String) :=
  match best with
  | none => if sc > 0 then some (f, sc, m) else none
  | some (f0, s0, m0) => if sc > s0 then some (f, sc, m) else some (f0, s0, m0)

/-- The three non-exclusive scoring heuristics of `_find_best_match` for a
single canonical field: alias match (0.95), token overlap
(`0.8 + (jaccard − 0.5)·0.3`), fuzzy ratio (`0.6 + (ratio − 0.7)·0.5`). -/
def scoreField (ratio : String → String → ℚ) (hc : String) (c : String)
    (best : Option (String × ℚ × String)) : Option (String × ℚ × String) :=
  let cc := normalizeHeader c
  let best1 :=
    match commonAliases.lookup (pyLowerStr c) with
    | some aliases =>
      aliases.foldl
        (fun b a =>
          if ratio hc (normalizeHeader a) > 85 then updateBest b c (19/20) "alias_match" else b)
        best
    | none => best
  let ht := tokenSet hc
  let ct := tokenSet cc
  let best2 :=
    if ¬ht.isEmpty ∧ ¬ct.isEmpty then
      let overlap := (ht.filter (fun t => decide (t ∈ ct))).length
      let union := (ht ++ ct.filter (fun t => decide (t ∉ ht))).length
      let j : ℚ := if union > 0 then (overlap : ℚ) / (union : ℚ) else 0
      if j > 1/2 then updateBest best1 c (4/5 + (j - 1/2) * (3/10)) "token_overlap" else best1
    else best1
  let fs := ratio hc cc / 100
  if fs > 7/10 then updateBest best2 c (3/5 + (fs - 7/10) * (1/2)) "fuzzy_match" else best2

/-- The per-field loop of `_find_best_match`: an exact normalized match
returns immediately; otherwise the three heuristics update the running best.
At the end a suggestion is emitted only when `best_match` is truthy and
`best_score > 0.6`. -/
def findBestMatchGo (ratio : String → String → ℚ) (hc : String) :
    List String → Option (String × ℚ × String) → Option Suggestion
  | [], best =>
    match best with
    | some (f, sc, m) => if ¬(f = "") ∧ sc > 3/5 then some ⟨f, sc, m⟩ else none
    | none => none
  | c :: rest, best =>
    if hc = normalizeHeader c then some ⟨c, 1, "exact_match"⟩
    else findBestMatchGo ratio hc rest (scoreField ratio hc c best)

/-- `HeaderMapper._find_best_match`. -/
def findBestMatch (ratio : String → String → ℚ) (header : String)
    (canonicalFields : List String) (promoted : List (String × String)) :
    Option Suggestion :=
  match promoted.lookup header with
  | some f => some ⟨f, 1, "promoted_alias"⟩
  | none => findBestMatchGo ratio (normalizeHeader header) canonicalFields none

/-- `HeaderMapper.suggest_mappings`: one suggestion per input header that has
one (the result `dict` is an association list in input-header order). -/
def suggestMappings (ratio : String → String → ℚ) (inputHeaders : List String)
    (canonicalFields : List String) (promoted : List (String × String)) :
    List (String × Suggestion) :=
  inputHeaders.filterMap
    (fun h => (findBestMatch ratio h canonicalFields promoted).map (fun sug => (h, sug)))

/-! ## `PersistenceManager` (src/persistence.py) and the promote handler
(src/app.py, lines 272–285)

The store file is a JSON file on disk; its observable states are "missing"
and "present with some text content".  JSON parsing is modelled by a
parameter `parse : String → Option StoreDict`: `none` covers both invalid
JSON and JSON whose top level is not an object (both make
`load_promoted_fixes` fall into its broad `except` branch — the second via
the `AttributeError` raised by `data.get`).  A parsed object may lack either
key, hence the `Option` fields. -/

/-- A fix rule as built by `PersistenceManager.add_fix_rule`
(keys `field`, `rule_type`, `original`, `replacement`, `params`). -/
structure FixRule where
  field : String
  rule_type : String
  original : String
  replacement : String
  params : List (String × String)
deriving DecidableEq, Repr

/-- A parsed top-level JSON object of the store file; either key may be
absent (`json.load` returns the dict as-is). -/
structure StoreDict where
  header_aliases : Option (List (String × String))
  fix_rules : Option (List FixRule)
deriving DecidableEq, Repr

/-- `{'header_aliases': {}, 'fix_rules': []}`. -/
def emptyStore : StoreDict := ⟨some [], some []⟩

/-- Observable state of the store file. -/
inductive StoreFile where
  | missing : StoreFile
  | present : String → StoreFile
deriving DecidableEq

/-- `PersistenceManager.load_promoted_fixes` (src/persistence.py 14–50). -/
def loadPromotedFixes (parse : String → Option StoreDict) : StoreFile → StoreDict
  | .missing => emptyStore
  | .present c =>
    if c.length = 0 then emptyStore
    else
      match parse c with
      | none => emptyStore
      | some d => d

/-- `PersistenceManager.add_fix_rule` (src/persistence.py 96–127), content
level: load, append the new rule to `fix_rules`, save.  `none` models the
`return False` taken when the loaded dict has no `fix_rules` key (the
`KeyError` lands in the broad `except`); on success the saved store is
returned.  The rule is appended unconditionally — there is no membership
check. -/
def addFixRule (parse : String → Option StoreDict) (fs : StoreFile)
    (field rule_type original replacement : String)
    (params : List (String × String)) : Option StoreDict :=
  let cur := loadPromotedFixes parse fs
  match cur.fix_rules with
  | none => none
  | some rules =>
    some ⟨cur.header_aliases, some (rules ++ [⟨field, rule_type, original, replacement, params⟩])⟩

/-- A fix rule as built by the promote handler in `handle_targeted_fixes`
(src/app.py 276–284; keys `field`, `rule`, `original`, `replacement`). -/
structure AppRule where
  field : String
  rule : String
  original : String
  replacement : String
deriving DecidableEq, Repr

/-- The promote-button loop of `handle_targeted_fixes` (src/app.py 276–284):
each applied fix's rule is appended to `fix_rules` only if it is not already
present (`if rule not in current_promoted['fix_rules']`). -/
def promoteRules (current : List AppRule) (applied : List AppRule) : List AppRule :=
  applied.foldl (fun acc r => if r ∈ acc then acc else acc ++ [r]) current

/-! ## `DataCleaner.validate_dataframe` (src/cleaner.py, lines 81–116)

A dataframe is a list of named columns, each a list of cells
(`none` = null/NaN, `some v` = a non-null value).  The validator registry is
a parameter: an ordered association list of (rule key, predicate), searched
with Python's `in` (substring) against the lower-cased column name — the
first match wins. -/

/-- The per-column counters reported by `validate_dataframe`. -/
structure ValidationCounts where
  valid_count : Nat
  invalid_count : Nat
  null_count : Nat
  total_count : Nat
  valid_percentage : ℚ
deriving DecidableEq, Repr

/-- `valid_mask` of one cell: `bool(validation_func(x)) if pd.notna(x) else False`. -/
def cellValid {α : Type} (pred : α → Bool) : Option α → Bool
  | some v => pred v
  | none => false

/-- The counters computed for one column.  `total_count = len(df)` is the
column length (every column of a dataframe has exactly `len(df)` cells). -/
def countsFor {α : Type} (pred : α → Bool) (col : List (Option α)) : ValidationCounts :=
  let valid := (col.filter (cellValid pred)).length
  let nulls := (col.filter (fun c => c.isNone)).length
  let invalid := (col.filter (fun c => !cellValid pred c && c.isSome)).length
  ⟨valid, invalid, nulls, col.length,
    if col.length > 0 then ((valid : ℚ) / (col.length : ℚ)) * 100 else 0⟩

/-- `needle` is a prefix of `hay` (both as character lists). -/
def startsWithL : List Char → List Char → Bool
  | [], _ => true
  | _ :: _, [] => false
  | a :: as, b :: bs => a = b && startsWithL as bs

/-- Python's `needle in hay` on strings: substring test. -/
def isSubstrL (needle : List Char) : List Char → Bool
  | [] => needle.isEmpty
  | c :: rest => startsWithL needle (c :: rest) || isSubstrL needle rest

/-- `for rule_key, rule_func in ...: if rule_key in column_lower: ...` —
first registry entry whose key is a substring of the lower-cased name. -/
def findRuleFor {α : Type} (rules : List (String × (α → Bool))) (columnLower : String) :
    Option (α → Bool) :=
  match rules with
  | [] => none
  | (k, f) :: rest =>
    if isSubstrL k.data columnLower.data then some f else findRuleFor rest columnLower

/-- `df.loc[:, ~df.columns.duplicated()]`: drop later columns with an
already-seen name. -/
def dedupColumns {α : Type} : List String → List (String × List (Option α)) →
    List (String × List (Option α))
  | _, [] => []
  | seen, (n, col) :: rest =>
    if n ∈ seen then dedupColumns seen rest
    else (n, col) :: dedupColumns (n :: seen) rest

/-- `DataCleaner.validate_dataframe`. -/
def validateDataframe {α : Type} (rules : List (String × (α → Bool)))
    (df : List (String × List (Option α))) : List (String × ValidationCounts) :=
  (dedupColumns [] df).filterMap
    (fun nc => (findRuleFor rules (pyLowerStr nc.1)).map (fun pred => (nc.1, countsFor pred nc.2)))

end SchemaMapper

/-! ## Supporting lemmas -/

namespace SchemaMapper
theorem char_toNat_ofNat {n : Nat} (h : n.isValidChar) : (Char.ofNat n).toNat = n := by
  unfold Char.ofNat
  simp only [h, dite_true]
  unfold Char.ofNatAux Char.toNat
  simp [UInt32.toNat, BitVec.toNat_ofNat]

theorem char_le_iff_toNat {a b : Char} : a ≤ b ↔ a.toNat ≤ b.toNat := Iff.rfl

theorem toNat_A : ('A' : Char).toNat = 65 := rfl
theorem toNat_Z : ('Z' : Char).toNat = 90 := rfl
theorem toNat_a : ('a' : Char).toNat = 97 := rfl
theorem toNat_z : ('z' : Char).toNat = 122 := rfl
theorem toNat_space : (' ' : Char).toNat = 32 := rfl
theorem toNat_tab : ('\t' : Char).toNat = 9 := rfl
theorem toNat_lf : ('\n' : Char).toNat = 10 := rfl
theorem toNat_vt : ('\x0b' : Char).toNat = 11 := rfl
theorem toNat_ff : ('\x0c' : Char).toNat = 12 := rfl
theorem toNat_cr : ('\r' : Char).toNat = 13 := rfl

theorem char_eq_iff_toNat {a b : Char} : a = b ↔ a.toNat = b.toNat := by
  constructor
  · intro h; rw [h]
  · intro h
    apply Char.eq_of_val_eq
    apply UInt32.eq_of_toBitVec_eq
    have : a.val.toNat = b.val.toNat := h
    exact BitVec.eq_of_toNat_eq this

theorem upper_range_toNat {c : Char} (h : 'A' ≤ c ∧ c ≤ 'Z') :
    65 ≤ c.toNat ∧ c.toNat ≤ 90 := by
  have h1 := char_le_iff_toNat.mp h.1
  have h2 := char_le_iff_toNat.mp h.2
  rw [toNat_A] at h1
  rw [toNat_Z] at h2
  exact ⟨h1, h2⟩

theorem lower_range_toNat {c : Char} (h : 'a' ≤ c ∧ c ≤ 'z') :
    97 ≤ c.toNat ∧ c.toNat ≤ 122 := by
  have h1 := char_le_iff_toNat.mp h.1
  have h2 := char_le_iff_toNat.mp h.2
  rw [toNat_a] at h1
  rw [toNat_z] at h2
  exact ⟨h1, h2⟩

theorem toNat_pyLower_of_upper {c : Char} (h : 'A' ≤ c ∧ c ≤ 'Z') :
    (pyLower c).toNat = c.toNat + 32 := by
  obtain ⟨h1, h2⟩ := upper_range_toNat h
  have hval : (c.toNat + 32).isValidChar := Or.inl (by omega)
  simp [pyLower, h, char_toNat_ofNat hval]

theorem pyLower_of_not_upper {c : Char} (h : ¬('A' ≤ c ∧ c ≤ 'Z')) :
    pyLower c = c := by
  simp [pyLower, h]

theorem toNat_pyUpper_of_lower {c : Char} (h : 'a' ≤ c ∧ c ≤ 'z') :
    (pyUpper c).toNat = c.toNat - 32 := by
  obtain ⟨h1, h2⟩ := lower_range_toNat h
  have hval : (c.toNat - 32).isValidChar := Or.inl (by omega)
  simp [pyUpper, h, char_toNat_ofNat hval]

theorem pyUpper_of_not_lower {c : Char} (h : ¬('a' ≤ c ∧ c ≤ 'z')) :
    pyUpper c = c := by
  simp [pyUpper, h]

theorem pyLower_pyLower (c : Char) : pyLower (pyLower c) = pyLower c := by
  by_cases h : 'A' ≤ c ∧ c ≤ 'Z'
  · obtain ⟨h1, h2⟩ := upper_range_toNat h
    have htn := toNat_pyLower_of_upper h
    apply pyLower_of_not_upper
    intro hcon
    have := char_le_iff_toNat.mp hcon.2
    rw [htn, toNat_Z] at this
    omega
  · rw [pyLower_of_not_upper h, pyLower_of_not_upper h]

theorem pyUpper_pyUpper (c : Char) : pyUpper (pyUpper c) = pyUpper c := by
  by_cases h : 'a' ≤ c ∧ c ≤ 'z'
  · obtain ⟨h1, h2⟩ := lower_range_toNat h
    have htn := toNat_pyUpper_of_lower h
    apply pyUpper_of_not_lower
    intro hcon
    have := char_le_iff_toNat.mp hcon.1
    rw [htn, toNat_a] at this
    omega
  · rw [pyUpper_of_not_lower h, pyUpper_of_not_lower h]

/-- `pyLower` sends word characters to word characters and fixes non-word characters. -/
theorem isWordChar_pyLower (c : Char) : isWordChar (pyLower c) = isWordChar c := by
  by_cases h : 'A' ≤ c ∧ c ≤ 'Z'
  · obtain ⟨h1, h2⟩ := upper_range_toNat h
    have htn := toNat_pyLower_of_upper h
    have hlow : 'a' ≤ pyLower c ∧ pyLower c ≤ 'z' := by
      constructor <;> (rw [char_le_iff_toNat, htn] ; first
        | (rw [toNat_a] ; omega) | (rw [toNat_z] ; omega))
    simp only [isWordChar, decide_eq_decide]
    constructor
    · intro _; exact Or.inr (Or.inl h)
    · intro _; exact Or.inl hlow
  · rw [pyLower_of_not_upper h]

theorem isSpaceChar_pyLower (c : Char) : isSpaceChar (pyLower c) = isSpaceChar c := by
  by_cases h : 'A' ≤ c ∧ c ≤ 'Z'
  · obtain ⟨h1, h2⟩ := upper_range_toNat h
    have htn := toNat_pyLower_of_upper h
    have hsp : isSpaceChar c = false := by
      simp only [isSpaceChar, decide_eq_false_iff_not]
      rintro (h' | h' | h' | h' | h' | h') <;>
        (rw [char_eq_iff_toNat] at h' ;
         first
          | (rw [toNat_space] at h' ; omega) | (rw [toNat_tab] at h' ; omega)
          | (rw [toNat_lf] at h' ; omega) | (rw [toNat_vt] at h' ; omega)
          | (rw [toNat_ff] at h' ; omega) | (rw [toNat_cr] at h' ; omega))
    have hsp2 : isSpaceChar (pyLower c) = false := by
      simp only [isSpaceChar, decide_eq_false_iff_not]
      rintro (h' | h' | h' | h' | h' | h') <;>
        (rw [char_eq_iff_toNat, htn] at h' ;
         first
          | (rw [toNat_space] at h' ; omega) | (rw [toNat_tab] at h' ; omega)
          | (rw [toNat_lf] at h' ; omega) | (rw [toNat_vt] at h' ; omega)
          | (rw [toNat_ff] at h' ; omega) | (rw [toNat_cr] at h' ; omega))
    rw [hsp, hsp2]
  · rw [pyLower_of_not_upper h]

/-! ### Pointwise facts -/

theorem isSpaceChar_space : isSpaceChar ' ' = true := by decide

theorem pyLower_space : pyLower ' ' = ' ' := pyLower_of_not_upper (by decide)

theorem subSpecial_subSpecial (c : Char) : subSpecial (subSpecial c) = subSpecial c := by
  unfold subSpecial
  by_cases h : (isWordChar c || isSpaceChar c) = true
  · simp [h]
  · simp [h]

theorem pyLower_subSpecial_pyLower (c : Char) :
    pyLower (subSpecial (pyLower c)) = subSpecial (pyLower c) := by
  unfold subSpecial
  by_cases h : (isWordChar (pyLower c) || isSpaceChar (pyLower c)) = true
  · simp only [h, if_pos, pyLower_pyLower]
  · simp only [h, Bool.false_eq_true, if_neg, Bool.not_eq_true]
    simp [pyLower_space]

theorem subSpecial_space : subSpecial ' ' = ' ' := by decide

/-! ### Facts about `collapseWs` -/

/-- Characters of the collapsed list come from the original list or are `' '`. -/
theorem mem_collapseWs {c : Char} : ∀ {l : List Char}, c ∈ collapseWs l → c = ' ' ∨ c ∈ l
  | [], h => by simp [collapseWs] at h
  | a :: rest, h => by
    unfold collapseWs at h
    by_cases ha : isSpaceChar a = true
    · simp only [ha, if_pos] at h
      rcases hr : collapseWs rest with _ | ⟨b, t⟩ <;> rw [hr] at h
      · simp at h
        exact Or.inl h
      · by_cases hb : b = ' ' <;> simp only [hb, if_pos, if_neg] at h
        · subst hb
          have := mem_collapseWs (l := rest) (by rw [hr]; exact h)
          tauto
        · rcases List.mem_cons.mp h with h' | h'
          · exact Or.inl h'
          · have := mem_collapseWs (l := rest) (by rw [hr]; exact h')
            tauto
    · simp only [ha, Bool.false_eq_true, if_neg, Bool.not_eq_true] at h
      rcases List.mem_cons.mp h with h' | h'
      · subst h'; simp
      · have := mem_collapseWs (l := rest) h'
        tauto

/-- If the collapsed list starts with a whitespace character, it is `' '`. -/
theorem collapseWs_head_space :
    ∀ {l : List Char} {c : Char} {rest : List Char},
      collapseWs l = c :: rest → isSpaceChar c = true → c = ' '
  | [], c, rest, h, _ => by simp [collapseWs] at h
  | a :: t, c, rest, h, hsp => by
    unfold collapseWs at h
    by_cases ha : isSpaceChar a = true
    · simp only [ha, if_pos] at h
      rcases hr : collapseWs t with _ | ⟨b, t'⟩ <;> rw [hr] at h
      · injection h with h1 _
        exact h1.symm
      · by_cases hb : b = ' ' <;> simp only [hb, if_pos, if_neg] at h
        · injection h with h1 _
          exact h1.symm
        · injection h with h1 _
          exact h1.symm
    · simp only [ha, Bool.false_eq_true, if_neg, Bool.not_eq_true] at h
      injection h with h1 _
      subst h1
      exact absurd hsp (by simp [ha])

theorem spacesOk_tail {c : Char} {l : List Char} (h : spacesOk (c :: l) = true) :
    spacesOk l = true := by
  rcases l with _ | ⟨d, rest⟩
  · rfl
  · unfold spacesOk at h
    exact (Bool.and_eq_true ..▸ h).2

theorem spacesOk_cons_of_not_space {c : Char} {l : List Char}
    (hc : isSpaceChar c = false) (h : spacesOk l = true) : spacesOk (c :: l) = true := by
  rcases l with _ | ⟨d, rest⟩
  · simp [spacesOk, hc]
  · unfold spacesOk
    simp [hc, h]

theorem spacesOk_collapseWs : ∀ (l : List Char), spacesOk (collapseWs l) = true
  | [] => rfl
  | a :: rest => by
    have ih := spacesOk_collapseWs rest
    unfold collapseWs
    by_cases ha : isSpaceChar a = true
    · simp only [ha, if_pos]
      rcases hr : collapseWs rest with _ | ⟨b, t⟩
      · simp [spacesOk]
      · rw [hr] at ih
        by_cases hb : b = ' ' <;> simp only [hb, if_pos, if_neg]
        · rw [hb] at ih
          exact ih
        · have hbsp : isSpaceChar b = false := by
            by_contra hcon
            exact hb (collapseWs_head_space hr (by simpa using hcon))
          unfold spacesOk
          simp [hbsp, ih]
    · simp only [ha, Bool.false_eq_true, if_neg, Bool.not_eq_true]
      exact spacesOk_cons_of_not_space (by simp [ha]) ih

theorem collapseWs_eq_self_of_spacesOk :
    ∀ {l : List Char}, spacesOk l = true → collapseWs l = l
  | [], _ => rfl
  | a :: rest, h => by
    have ih := collapseWs_eq_self_of_spacesOk (spacesOk_tail h)
    unfold collapseWs
    by_cases ha : isSpaceChar a = true
    · -- spacesOk forces a = ' ' and the next character (if any) non-space
      rcases rest with _ | ⟨d, t⟩
      · unfold spacesOk at h
        simp only [ha, Bool.not_true, Bool.false_or, beq_iff_eq] at h
        subst h
        simp [ha, collapseWs]
      · unfold spacesOk at h
        rw [Bool.and_eq_true] at h
        obtain ⟨h1, _⟩ := h
        simp only [ha, Bool.not_true, Bool.false_or, Bool.and_eq_true, beq_iff_eq,
          Bool.not_eq_true'] at h1
        obtain ⟨haeq, hd⟩ := h1
        subst haeq
        rw [ih]
        have hdne : ¬d = ' ' := by
          intro hcon
          rw [hcon] at hd
          exact absurd isSpaceChar_space (by simp [hd])
        simp [ha, hdne]
    · simp [ha, ih]

/-! ### Facts about `lstripWs` / `rstripWs` -/

theorem mem_dropWhile {c : Char} {p : Char → Bool} :
    ∀ {l : List Char}, c ∈ l.dropWhile p → c ∈ l
  | [], h => h
  | a :: rest, h => by
    rw [List.dropWhile_cons] at h
    by_cases ha : p a = true
    · simp only [ha, if_pos] at h
      exact List.mem_cons_of_mem _ (mem_dropWhile h)
    · simp only [ha, Bool.false_eq_true, if_neg, Bool.not_eq_true] at h
      exact h

theorem rstripWs_cons_nil {a : Char} {rest : List Char} (h : rstripWs rest = []) :
    rstripWs (a :: rest) = if isSpaceChar a then [] else [a] := by
  unfold rstripWs
  rw [h]

theorem rstripWs_cons_cons {a b : Char} {rest t : List Char} (h : rstripWs rest = b :: t) :
    rstripWs (a :: rest) = a :: b :: t := by
  unfold rstripWs
  rw [h]

theorem mem_rstripWs {c : Char} : ∀ {l : List Char}, c ∈ rstripWs l → c ∈ l
  | [], h => h
  | a :: rest, h => by
    rcases hr : rstripWs rest with _ | ⟨b, t⟩
    · rw [rstripWs_cons_nil hr] at h
      by_cases ha : isSpaceChar a = true <;> simp only [ha, if_pos, if_neg] at h
      · simp at h
      · simp at h
        simp [h]
    · rw [rstripWs_cons_cons hr] at h
      rcases List.mem_cons.mp h with h' | h'
      · simp [h']
      · exact List.mem_cons_of_mem _ (mem_rstripWs (by rw [hr]; exact h'))

/-- `rstripWs` keeps the head of the list (or empties it). -/
theorem rstripWs_head (c : Char) (rest : List Char) :
    rstripWs (c :: rest) = [] ∨ ∃ t, rstripWs (c :: rest) = c :: t := by
  rcases hr : rstripWs rest with _ | ⟨b, t⟩
  · rw [rstripWs_cons_nil hr]
    by_cases ha : isSpaceChar c = true <;> simp [ha]
  · rw [rstripWs_cons_cons hr]
    exact Or.inr ⟨b :: t, rfl⟩

theorem rstripWs_rstripWs : ∀ (l : List Char), rstripWs (rstripWs l) = rstripWs l
  | [] => rfl
  | a :: rest => by
    have ih := rstripWs_rstripWs rest
    rcases hr : rstripWs rest with _ | ⟨b, t⟩
    · rw [rstripWs_cons_nil hr]
      by_cases ha : isSpaceChar a = true
      · simp only [ha, if_pos]
        rfl
      · have h0 : rstripWs [a] = [a] := by
          rw [rstripWs_cons_nil (show rstripWs [] = [] from rfl)]
          simp [ha]
        simp [ha, h0]
    · rw [rstripWs_cons_cons hr]
      rw [hr] at ih
      rw [rstripWs_cons_cons ih]

theorem spacesOk_head_clause {c d : Char} {t : List Char}
    (h : spacesOk (c :: d :: t) = true) :
    (!isSpaceChar c || ((c == ' ') && !isSpaceChar d)) = true := by
  unfold spacesOk at h
  exact (Bool.and_eq_true ..▸ h).1

theorem spacesOk_single_of_cons {c : Char} {rest : List Char}
    (h : spacesOk (c :: rest) = true) : spacesOk [c] = true := by
  rcases rest with _ | ⟨d, t⟩
  · exact h
  · have := spacesOk_head_clause h
    unfold spacesOk
    rcases Bool.or_eq_true ..▸ this with h' | h'
    · simp [h']
    · simp [(Bool.and_eq_true ..▸ h').1]

theorem spacesOk_dropWhile {l : List Char} (h : spacesOk l = true) :
    spacesOk (l.dropWhile isSpaceChar) = true := by
  induction l with
  | nil => exact h
  | cons a rest ih =>
    rw [List.dropWhile_cons]
    by_cases ha : isSpaceChar a = true
    · simp only [ha, if_pos]
      exact ih (spacesOk_tail h)
    · simp only [ha, Bool.false_eq_true, if_neg, Bool.not_eq_true]
      exact h

theorem spacesOk_rstripWs : ∀ {l : List Char}, spacesOk l = true → spacesOk (rstripWs l) = true
  | [], h => h
  | a :: rest, h => by
    have ih := spacesOk_rstripWs (spacesOk_tail h)
    unfold rstripWs
    rcases hr : rstripWs rest with _ | ⟨b, t⟩
    · by_cases ha : isSpaceChar a = true <;> simp only [ha, if_pos, if_neg]
      · rfl
      · exact spacesOk_single_of_cons h
    · simp only
      -- the head of `rstripWs rest` is the head of `rest`
      rcases rest with _ | ⟨d, t'⟩
      · simp [rstripWs] at hr
      · rcases rstripWs_head d t' with h' | ⟨t'', h''⟩
        · rw [h'] at hr; simp at hr
        · rw [h''] at hr
          injection hr with h1 h2
          subst h1
          subst h2
          rw [h''] at ih
          rcases Bool.or_eq_true ..▸ spacesOk_head_clause h with hcl | hcl
          · exact spacesOk_cons_of_not_space (by simpa using hcl) ih
          · unfold spacesOk
            rw [Bool.and_eq_true]
            refine ⟨?_, ih⟩
            simp only [Bool.or_eq_true, Bool.and_eq_true]
            exact Or.inr ⟨(Bool.and_eq_true ..▸ hcl).1, (Bool.and_eq_true ..▸ hcl).2⟩

theorem dropWhile_eq_self_of_head {p : Char → Bool} :
    ∀ {l : List Char}, (∀ c t, l = c :: t → p c = false) → l.dropWhile p = l
  | [], _ => rfl
  | a :: rest, h => by
    rw [List.dropWhile_cons, h a rest rfl]
    simp

/-- The head of `l.dropWhile p` does not satisfy `p`. -/
theorem dropWhile_head_false {p : Char → Bool} :
    ∀ {l : List Char} {c : Char} {t : List Char}, l.dropWhile p = c :: t → p c = false
  | [], c, t, h => by simp at h
  | a :: rest, c, t, h => by
    rw [List.dropWhile_cons] at h
    by_cases ha : p a = true
    · simp only [ha, if_pos] at h
      exact dropWhile_head_false h
    · simp only [ha, Bool.false_eq_true, if_neg, Bool.not_eq_true] at h
      injection h with h1 _
      subst h1
      simpa using ha

theorem map_id_of_fix {f : Char → Char} :
    ∀ {l : List Char}, (∀ c ∈ l, f c = c) → l.map f = l
  | [], _ => rfl
  | a :: rest, h => by
    rw [List.map_cons, h a (by simp), map_id_of_fix (fun c hc => h c (List.mem_cons_of_mem _ hc))]

/-! ### Idempotence of the normalizer -/

theorem normalizeL_fixed_chars {l : List Char} {c : Char} (hc : c ∈ normalizeL l) :
    pyLower c = c ∧ subSpecial c = c := by
  unfold normalizeL stripWs lstripWs at hc
  have hC := mem_dropWhile (mem_rstripWs hc)
  rcases mem_collapseWs hC with h' | h'
  · subst h'
    exact ⟨pyLower_space, subSpecial_space⟩
  · rw [List.mem_map] at h'
    obtain ⟨b, hb, hbe⟩ := h'
    rw [List.mem_map] at hb
    obtain ⟨a, _, hae⟩ := hb
    subst hae; subst hbe
    exact ⟨pyLower_subSpecial_pyLower a, subSpecial_subSpecial (pyLower a)⟩

theorem spacesOk_normalizeL (l : List Char) : spacesOk (normalizeL l) = true := by
  unfold normalizeL stripWs lstripWs
  exact spacesOk_rstripWs (spacesOk_dropWhile (spacesOk_collapseWs _))

theorem normalizeL_head_not_space {l : List Char} {c : Char} {t : List Char}
    (h : normalizeL l = c :: t) : isSpaceChar c = false := by
  unfold normalizeL stripWs lstripWs at h
  rcases hdw : (collapseWs ((l.map pyLower).map subSpecial)).dropWhile isSpaceChar
    with _ | ⟨d, t'⟩
  · rw [hdw] at h; simp [rstripWs] at h
  · rw [hdw] at h
    have hd := dropWhile_head_false hdw
    rcases rstripWs_head d t' with h' | ⟨t'', h''⟩
    · rw [h'] at h; simp at h
    · rw [h''] at h
      injection h with h1 _
      subst h1
      exact hd

/-- Idempotence at the character-list level. -/
theorem normalizeL_normalizeL (l : List Char) : normalizeL (normalizeL l) = normalizeL l := by
  conv_lhs => rw [normalizeL]
  rw [map_id_of_fix (fun c hc => (normalizeL_fixed_chars hc).1)]
  rw [map_id_of_fix (fun c hc => (normalizeL_fixed_chars hc).2)]
  rw [collapseWs_eq_self_of_spacesOk (spacesOk_normalizeL l)]
  unfold stripWs lstripWs
  rw [dropWhile_eq_self_of_head (fun c t h => normalizeL_head_not_space h)]
  -- `normalizeL l` is already right-stripped
  unfold normalizeL stripWs
  exact rstripWs_rstripWs _

/-- `_clean_phone` coincides with the specification's case analysis. -/
theorem cleanPhoneL_eq_phoneSpecL (l : List Char) : cleanPhoneL l = phoneSpecL l := by
  unfold cleanPhoneL phoneSpecL
  dsimp only
  by_cases h10 : (l.filter isDigitChar).length = 10
  · rw [if_pos h10, if_pos h10]
    have hl : ('9' :: '1' :: l.filter isDigitChar).length = 12 := by simp [h10]
    rw [if_pos hl]
  · rw [if_neg h10, if_neg h10]
    by_cases h11 : (l.filter isDigitChar).length = 11 ∧
        (l.filter isDigitChar).head? = some '0'
    · rw [if_pos h11, if_pos h11]
      have hl : ('9' :: '1' :: (l.filter isDigitChar).tail).length = 12 := by
        simp [List.length_tail, h11.1]
      rw [if_pos hl]
    · rw [if_neg h11, if_neg h11]

/-! ### The cleaner's outputs of ≥ 10 input digits pass the validator -/

theorem takeWhile_append_of_all {p : Char → Bool} {A : List Char} {s : Char} {B : List Char}
    (hA : ∀ c ∈ A, p c = true) (hs : p s = false) :
    (A ++ s :: B).takeWhile p = A := by
  induction A with
  | nil => simp [List.takeWhile_cons, hs]
  | cons a t ih =>
    rw [List.cons_append, List.takeWhile_cons, hA a (by simp)]
    simp only [if_pos]
    rw [ih (fun c hc => hA c (List.mem_cons_of_mem _ hc))]

theorem dropWhile_append_of_all {p : Char → Bool} {A : List Char} {s : Char} {B : List Char}
    (hA : ∀ c ∈ A, p c = true) (hs : p s = false) :
    (A ++ s :: B).dropWhile p = s :: B := by
  induction A with
  | nil => simp [List.dropWhile_cons, hs]
  | cons a t ih =>
    rw [List.cons_append, List.dropWhile_cons]
    rw [hA a (by simp)]
    simp only [if_pos]
    exact ih (fun c hc => hA c (List.mem_cons_of_mem _ hc))

theorem isDigitChar_space : isDigitChar ' ' = false := by decide

/-- Any string of shape `+<1–3 digits> <5 digits> <5 digits>` passes
`_validate_phone`. -/
theorem validatePhoneL_format {cc m n : List Char}
    (hcc : ∀ c ∈ cc, isDigitChar c = true) (h1 : 1 ≤ cc.length) (h3 : cc.length ≤ 3)
    (hm : ∀ c ∈ m, isDigitChar c = true) (hm5 : m.length = 5)
    (hn : ∀ c ∈ n, isDigitChar c = true) (hn5 : n.length = 5) :
    validatePhoneL ('+' :: (cc ++ ' ' :: (m ++ ' ' :: n))) = true := by
  unfold validatePhoneL
  simp only [if_pos rfl]
  rw [takeWhile_append_of_all hcc isDigitChar_space,
    dropWhile_append_of_all hcc isDigitChar_space]
  dsimp only
  rw [List.take_left' hm5, List.drop_left' hm5]
  simp only [hm5, hn5, h1, h3]
  simp [List.all_eq_true]
  exact ⟨hm, hn⟩

/-- The 12-digit `+CC DDDDD DDDDD` format passes the validator. -/
theorem validatePhoneL_fmt12 {a : List Char}
    (ha : ∀ c ∈ a, isDigitChar c = true) (hlen : a.length = 12) :
    validatePhoneL
      ('+' :: (a.take 2 ++ ' ' :: ((a.drop 2).take 5 ++ ' ' :: a.drop 7))) = true := by
  apply validatePhoneL_format
  · exact fun c hc => ha c (List.mem_of_mem_take hc)
  · simp [List.length_take, hlen]
  · simp [List.length_take, hlen]
  · exact fun c hc => ha c (List.mem_of_mem_drop (List.mem_of_mem_take hc))
  · simp [List.length_take, List.length_drop, hlen]
  · exact fun c hc => ha c (List.mem_of_mem_drop hc)
  · simp [List.length_drop, hlen]

/-- The `+91 <last 10 digits>` format passes the validator. -/
theorem validatePhoneL_fmtLast10 {a : List Char}
    (ha : ∀ c ∈ a, isDigitChar c = true) (hlen : 10 ≤ a.length) :
    validatePhoneL
      ('+' :: '9' :: '1' :: ' ' ::
        ((a.drop (a.length - 10)).take 5 ++ ' ' :: a.drop (a.length - 5))) = true := by
  have hshape : ('+' :: '9' :: '1' :: ' ' ::
      ((a.drop (a.length - 10)).take 5 ++ ' ' :: a.drop (a.length - 5)) : List Char) =
      '+' :: (['9', '1'] ++ ' ' ::
        ((a.drop (a.length - 10)).take 5 ++ ' ' :: a.drop (a.length - 5))) := rfl
  rw [hshape]
  apply validatePhoneL_format
  · intro c hc
    simp only [List.mem_cons, List.not_mem_nil, or_false] at hc
    rcases hc with h | h <;> (subst h ; decide)
  · decide
  · decide
  · exact fun c hc => ha c (List.mem_of_mem_drop (List.mem_of_mem_take hc))
  · simp only [List.length_take, List.length_drop]
    omega
  · exact fun c hc => ha c (List.mem_of_mem_drop hc)
  · simp only [List.length_drop]
    omega

theorem digits_cons91 {d : List Char} (hd : ∀ c ∈ d, isDigitChar c = true) :
    ∀ c ∈ '9' :: '1' :: d, isDigitChar c = true := by
  intro c hc
  rcases List.mem_cons.mp hc with h | hc'
  · subst h; decide
  · rcases List.mem_cons.mp hc' with h | hc''
    · subst h; decide
    · exact hd c hc''

theorem mem_filter_digits {l : List Char} :
    ∀ c ∈ l.filter isDigitChar, isDigitChar c = true :=
  fun _ hc => (List.mem_filter.mp hc).2

/-- Every output of `_clean_phone` on an input with at least 10 digits passes
`_validate_phone`. -/
theorem validatePhoneL_cleanPhoneL {l : List Char}
    (h : 10 ≤ (l.filter isDigitChar).length) :
    validatePhoneL (cleanPhoneL l) = true := by
  unfold cleanPhoneL
  dsimp only
  have hdig := mem_filter_digits (l := l)
  by_cases h10 : (l.filter isDigitChar).length = 10
  · rw [if_pos h10]
    have hl : ('9' :: '1' :: l.filter isDigitChar).length = 12 := by simp [h10]
    rw [if_pos hl]
    exact validatePhoneL_fmt12 (digits_cons91 hdig) hl
  · rw [if_neg h10]
    by_cases h11 : (l.filter isDigitChar).length = 11 ∧
        (l.filter isDigitChar).head? = some '0'
    · rw [if_pos h11]
      have hl : ('9' :: '1' :: (l.filter isDigitChar).tail).length = 12 := by
        simp [List.length_tail, h11.1]
      rw [if_pos hl]
      refine validatePhoneL_fmt12 (digits_cons91 ?_) hl
      exact fun c hc => hdig c (List.mem_of_mem_tail hc)
    · rw [if_neg h11]
      by_cases h12 : (l.filter isDigitChar).length = 12
      · rw [if_pos h12]
        exact validatePhoneL_fmt12 hdig h12
      · rw [if_neg h12, if_pos h]
        exact validatePhoneL_fmtLast10 hdig h

theorem isWordChar_pyUpper (c : Char) : isWordChar (pyUpper c) = isWordChar c := by
  by_cases h : 'a' ≤ c ∧ c ≤ 'z'
  · obtain ⟨h1, h2⟩ := lower_range_toNat h
    have htn := toNat_pyUpper_of_lower h
    have hup : 'A' ≤ pyUpper c ∧ pyUpper c ≤ 'Z' := by
      constructor <;> (rw [char_le_iff_toNat, htn] ; first
        | (rw [toNat_A] ; omega) | (rw [toNat_Z] ; omega))
    simp only [isWordChar, decide_eq_decide]
    constructor
    · intro _; exact Or.inl h
    · intro _; exact Or.inr (Or.inl hup)
  · rw [pyUpper_of_not_lower h]

theorem isUpperWordChar_pyUpper {c : Char} (h : isWordChar c = true) :
    isUpperWordChar (pyUpper c) = true := by
  by_cases hl : 'a' ≤ c ∧ c ≤ 'z'
  · obtain ⟨h1, h2⟩ := lower_range_toNat hl
    have htn := toNat_pyUpper_of_lower hl
    have hup : 'A' ≤ pyUpper c ∧ pyUpper c ≤ 'Z' := by
      constructor <;> (rw [char_le_iff_toNat, htn] ; first
        | (rw [toNat_A] ; omega) | (rw [toNat_Z] ; omega))
    unfold isUpperWordChar
    rw [Bool.and_eq_true]
    constructor
    · simp only [isWordChar, decide_eq_true_eq]
      exact Or.inr (Or.inl hup)
    · simp only [Bool.not_eq_true']
      rw [decide_eq_false_iff_not]
      intro hcon
      have := char_le_iff_toNat.mp hcon.1
      rw [htn, toNat_a] at this
      omega
  · rw [pyUpper_of_not_lower hl]
    unfold isUpperWordChar
    rw [Bool.and_eq_true]
    refine ⟨h, ?_⟩
    simp only [Bool.not_eq_true']
    rw [decide_eq_false_iff_not]
    exact hl

/-- The two cleaners agree: upper-casing and dropping non-word characters
commute, because `pyUpper` maps word characters to word characters. -/
theorem cleanTaxIdL_eq_cleanPostalCodeL (l : List Char) :
    cleanTaxIdL l = cleanPostalCodeL l := by
  unfold cleanTaxIdL cleanPostalCodeL
  rw [List.filter_map]
  congr 1
  apply List.filter_congr
  intro c _
  exact isWordChar_pyUpper c

theorem cleanPostalCodeL_all_upperWord (l : List Char) :
    (cleanPostalCodeL l).all isUpperWordChar = true := by
  unfold cleanPostalCodeL
  rw [List.all_eq_true]
  intro c hc
  rw [List.mem_map] at hc
  obtain ⟨b, hb, hbe⟩ := hc
  subst hbe
  exact isUpperWordChar_pyUpper (List.mem_filter.mp hb).2

theorem findBestMatchGo_confidence {ratio : String → String → ℚ} {hc : String}
    {s : Suggestion} :
    ∀ {fields : List String} {best : Option (String × ℚ × String)},
      findBestMatchGo ratio hc fields best = some s → s.confidence > 3/5
  | [], best, h => by
    unfold findBestMatchGo at h
    rcases best with _ | ⟨f, sc, m⟩
    · exact absurd h (by simp)
    · dsimp only at h
      by_cases hcond : ¬(f = "") ∧ sc > 3/5
      · rw [if_pos hcond] at h
        injection h with h'
        rw [← h']
        exact hcond.2
      · rw [if_neg hcond] at h
        exact absurd h (by simp)
  | c :: rest, best, h => by
    unfold findBestMatchGo at h
    by_cases hex : hc = normalizeHeader c
    · rw [if_pos hex] at h
      injection h with h'
      rw [← h']
      norm_num
    · rw [if_neg hex] at h
      exact findBestMatchGo_confidence h

theorem findBestMatch_confidence {ratio : String → String → ℚ} {header : String}
    {canonicalFields : List String} {promoted : List (String × String)} {s : Suggestion}
    (h : findBestMatch ratio header canonicalFields promoted = some s) :
    s.confidence > 3/5 := by
  unfold findBestMatch at h
  rcases hl : promoted.lookup header with _ | f <;> rw [hl] at h
  · exact findBestMatchGo_confidence h
  · injection h with h'
    rw [← h']
    norm_num

theorem counts_partition {α : Type} (pred : α → Bool) :
    ∀ col : List (Option α),
      (col.filter (cellValid pred)).length +
      (col.filter (fun c => !cellValid pred c && c.isSome)).length +
      (col.filter (fun c => c.isNone)).length = col.length
  | [] => rfl
  | c :: rest => by
    have ih := counts_partition pred rest
    rcases c with _ | v
    · simp only [List.filter_cons, cellValid] at ih ⊢
      simp
      omega
    · by_cases hp : pred v = true <;>
        (simp only [List.filter_cons, cellValid] at ih ⊢ ; simp [hp] ; omega)

/-- Columns surviving `dedupColumns` are columns of the original dataframe. -/
theorem mem_dedupColumns {α : Type} {e : String × List (Option α)} :
    ∀ {seen : List String} {df : List (String × List (Option α))},
      e ∈ dedupColumns seen df → e ∈ df
  | _, [], h => h
  | seen, (n, col) :: rest, h => by
    unfold dedupColumns at h
    by_cases hn : n ∈ seen
    · rw [if_pos hn] at h
      exact List.mem_cons_of_mem _ (mem_dedupColumns h)
    · rw [if_neg hn] at h
      rcases List.mem_cons.mp h with h' | h'
      · rw [h']; simp
      · exact List.mem_cons_of_mem _ (mem_dedupColumns h')

theorem normalizeHeader_example_punct : normalizeHeader "Company Name!" = "company name" := by decide
theorem normalizeHeader_example_symbols : normalizeHeader "VAT#123" = "vat 123" := by decide
theorem normalizeHeader_example_spaces : normalizeHeader "  Multiple   Spaces  " = "multiple spaces" := by decide

end SchemaMapper

/-! ## The claims -/
/-- C2 (code evaluated at the failing input): the numeric cleaner `f` is not
idempotent.  `f("10000000000000000") = 10^16` (exactly representable as an
IEEE double), Python prints that float as `"1e+16"`, and re-cleaning that
printed value strips the `'e'` and the `'+'`, leaving `"116"`, so
`f(f(x)) = 116.0 ≠ 10^16 = f(x)`.  This theorem evaluates the embedded
cleaner at both strings. -/
theorem C2_number_cleaner_not_idempotent :
    SchemaMapper.cleanNumber "10000000000000000" = some ((10 : ℚ) ^ 16) ∧
    SchemaMapper.cleanNumber "1e+16" = some (116 : ℚ) ∧
    ((10 : ℚ) ^ 16) ≠ (116 : ℚ) := by
  refine ⟨?_, ?_, by norm_num⟩
  · unfold SchemaMapper.cleanNumber
    rw [show SchemaMapper.numStrip "10000000000000000".data =
        "10000000000000000".data from by decide]
    unfold SchemaMapper.pyParseFloat
    rw [if_neg (by decide)]
    unfold SchemaMapper.pyParseUnsigned
    rw [show ("10000000000000000".data).dropWhile SchemaMapper.isDigitChar = [] from by decide]
    rw [show ("10000000000000000".data).takeWhile SchemaMapper.isDigitChar =
        "10000000000000000".data from by decide]
    dsimp only
    rw [if_neg (by decide)]
    rw [show SchemaMapper.digitsNat "10000000000000000".data = 10 ^ 16 from by decide]
    norm_num
  · unfold SchemaMapper.cleanNumber
    rw [show SchemaMapper.numStrip "1e+16".data = "116".data from by decide]
    unfold SchemaMapper.pyParseFloat
    rw [if_neg (by decide)]
    unfold SchemaMapper.pyParseUnsigned
    rw [show ("116".data).dropWhile SchemaMapper.isDigitChar = [] from by decide]
    rw [show ("116".data).takeWhile SchemaMapper.isDigitChar = "116".data from by decide]
    dsimp only
    rw [if_neg (by decide)]
    rw [show SchemaMapper.digitsNat "116".data = 116 from by decide]
    norm_num

/-- C8 (counterexample): the tax-id cleaner keeps the underscore (a regex
word character), so its output is *not* the upper-cased subsequence of
alphanumeric characters, and not every output character is an upper-case
letter or digit: on `"a_b"` it returns `"A_B"`, not `"AB"`. -/
theorem C8_counterexample :
    SchemaMapper.cleanTaxId "a_b" = "A_B" ∧
    SchemaMapper.alnumUpperSpec "a_b" = "AB" ∧
    SchemaMapper.cleanTaxId "a_b" ≠ SchemaMapper.alnumUpperSpec "a_b" := by
  refine ⟨by decide, by decide, by decide⟩

/-- C8 (amended): both cleaners strip surrounding whitespace and keep exactly
the *word* characters (letters, digits, underscore) of the input, upper-cased;
the two cleaners agree on every input, and every character of the output is an
upper-case letter, a digit, or an underscore. -/
theorem C8_tax_postal_cleaners (s : String) :
    SchemaMapper.cleanTaxId s = SchemaMapper.cleanPostalCode s ∧
    (SchemaMapper.cleanTaxId s).data.all SchemaMapper.isUpperWordChar = true := by
  constructor
  · exact congrArg String.mk (SchemaMapper.cleanTaxIdL_eq_cleanPostalCodeL s.data)
  · show (SchemaMapper.cleanTaxIdL s.data).all SchemaMapper.isUpperWordChar = true
    rw [SchemaMapper.cleanTaxIdL_eq_cleanPostalCodeL]
    exact SchemaMapper.cleanPostalCodeL_all_upperWord s.data

/-- C6: `_clean_phone` implements exactly the digit-length case analysis stated
in the specification (`phoneSpec`, written from the spec's wording), and in
particular cleaning `"9876543210"` yields `"+91 98765 43210"`, which the phone
validator accepts. -/
theorem C6_phone_case_analysis :
    (∀ s : String, SchemaMapper.cleanPhone s = SchemaMapper.phoneSpec s) ∧
    SchemaMapper.cleanPhone "9876543210" = "+91 98765 43210" ∧
    SchemaMapper.validatePhone (SchemaMapper.cleanPhone "9876543210") = true :=
  ⟨fun s => congrArg String.mk (SchemaMapper.cleanPhoneL_eq_phoneSpecL s.data),
   by decide, by decide⟩

/-- C7 (counterexample): the claim "for every non-null input x, the output of
the phone cleaner satisfies the phone validation predicate" is false: the
input `"123"` has fewer than 10 digits, passes through as `"123"`, and fails
the validator. -/
theorem C7_counterexample :
    SchemaMapper.cleanPhone "123" = "123" ∧
    SchemaMapper.validatePhone (SchemaMapper.cleanPhone "123") = false := by
  constructor <;> decide

/-- C7 (amended): for every input with at least 10 digits, the output of the
phone cleaner matches the phone validator regex `+\d{1,3} \d{5} \d{5}`. -/
theorem C7_cleaned_phone_validates (s : String)
    (h : 10 ≤ (s.data.filter SchemaMapper.isDigitChar).length) :
    SchemaMapper.validatePhone (SchemaMapper.cleanPhone s) = true :=
  SchemaMapper.validatePhoneL_cleanPhoneL h

/-- Witness for C7 (amended) at the concrete input `"9876543210"`. -/
theorem C7_cleaned_phone_validates_witness :
    10 ≤ ("9876543210".data.filter SchemaMapper.isDigitChar).length ∧
    SchemaMapper.validatePhone (SchemaMapper.cleanPhone "9876543210") = true :=
  ⟨by decide, C7_cleaned_phone_validates "9876543210" (by decide)⟩

/-- C9: `HeaderMapper._normalize_header` is pure and total (it is a Lean
function), and idempotent: `normalize(normalize(h)) = normalize(h)` for every
input string `h`. -/
theorem C9_normalize_idempotent (h : String) :
    SchemaMapper.normalizeHeader (SchemaMapper.normalizeHeader h) =
      SchemaMapper.normalizeHeader h := by
  unfold SchemaMapper.normalizeHeader
  exact congrArg String.mk (SchemaMapper.normalizeL_normalizeL h.data)

/-- C3: every suggestion returned by `suggest_mappings` has confidence
strictly greater than 0.6, for every choice of inputs and every behaviour of
the fuzzy-similarity oracle. -/
theorem C3_confidence_above_threshold
    (ratio : String → String → ℚ) (inputHeaders canonicalFields : List String)
    (promoted : List (String × String)) (p : String × SchemaMapper.Suggestion)
    (hp : p ∈ SchemaMapper.suggestMappings ratio inputHeaders canonicalFields promoted) :
    p.2.confidence > 3/5 := by
  unfold SchemaMapper.suggestMappings at hp
  rw [List.mem_filterMap] at hp
  obtain ⟨h, _, hfb⟩ := hp
  rcases ho : SchemaMapper.findBestMatch ratio h canonicalFields promoted with _ | sug <;>
    rw [ho] at hfb
  · exact absurd hfb (by simp)
  · simp only [Option.map_some'] at hfb
    injection hfb with h'
    rw [← h']
    exact SchemaMapper.findBestMatch_confidence ho

/-- Witness for C3 at concrete inputs (an exact match with confidence 1). -/
theorem C3_confidence_above_threshold_witness :
    ("phone", (⟨"phone", 1, "exact_match"⟩ : SchemaMapper.Suggestion)) ∈
      SchemaMapper.suggestMappings (fun _ _ => 0) ["phone"] ["phone"] [] ∧
    ((⟨"phone", 1, "exact_match"⟩ : SchemaMapper.Suggestion)).confidence > 3/5 :=
  ⟨by decide,
   C3_confidence_above_threshold (fun _ _ => 0) ["phone"] ["phone"] []
     ("phone", ⟨"phone", 1, "exact_match"⟩) (by decide)⟩

/-- C1: a header present in `promoted_aliases` is always suggested as exactly
`{mapped_field: promoted_aliases[header], confidence: 1.0,
method: 'promoted_alias'}`, whatever the canonical fields, the other headers
and the fuzzy-similarity oracle. -/
theorem C1_promoted_alias_wins
    (ratio : String → String → ℚ) (inputHeaders canonicalFields : List String)
    (promoted : List (String × String)) (h f : String)
    (hmem : h ∈ inputHeaders) (hlook : promoted.lookup h = some f) :
    (SchemaMapper.suggestMappings ratio inputHeaders canonicalFields promoted).lookup h =
      some ⟨f, 1, "promoted_alias"⟩ := by
  have hfb : SchemaMapper.findBestMatch ratio h canonicalFields promoted =
      some ⟨f, 1, "promoted_alias"⟩ := by
    unfold SchemaMapper.findBestMatch
    rw [hlook]
  induction inputHeaders with
  | nil => cases hmem
  | cons h' rest ih =>
    unfold SchemaMapper.suggestMappings
    rw [List.filterMap_cons]
    by_cases hh : h' = h
    · subst hh
      rw [hfb]
      simp [List.lookup]
    · rcases hfb' : SchemaMapper.findBestMatch ratio h' canonicalFields promoted with _ | s
      · simp only [Option.map_none']
        exact ih (by rcases List.mem_cons.mp hmem with he | hm ; exact absurd he.symm hh ; exact hm)
      · simp only [Option.map_some']
        have hne : (h == h') = false := by
          rw [beq_eq_false_iff_ne]
          exact fun he => hh he.symm
        rw [List.lookup_cons]
        simp only [hne]
        exact ih (by rcases List.mem_cons.mp hmem with he | hm ; exact absurd he.symm hh ; exact hm)

/-- Witness for C1 at concrete inputs. -/
theorem C1_promoted_alias_wins_witness :
    "Tel No" ∈ ["Tel No"] ∧
    ([("Tel No", "phone")].lookup "Tel No" = some "phone") ∧
    (SchemaMapper.suggestMappings (fun _ _ => 0) ["Tel No"] ["phone"]
        [("Tel No", "phone")]).lookup "Tel No" =
      some ⟨"phone", 1, "promoted_alias"⟩ :=
  ⟨by decide, by decide,
   C1_promoted_alias_wins (fun _ _ => 0) ["Tel No"] ["phone"] [("Tel No", "phone")]
     "Tel No" "phone" (by decide) (by decide)⟩

/-- C4: `load_promoted_fixes` never fails — a missing file, an empty file and
unparsable content all yield `{header_aliases: {}, fix_rules: []}`, and a
well-formed store yields exactly the stored data — for every behaviour of the
JSON parser and every file state. -/
theorem C4_load_never_fails (parse : String → Option SchemaMapper.StoreDict)
    (fs : SchemaMapper.StoreFile) :
    (fs = .missing →
      SchemaMapper.loadPromotedFixes parse fs = SchemaMapper.emptyStore) ∧
    (∀ c, fs = .present c → c.length = 0 →
      SchemaMapper.loadPromotedFixes parse fs = SchemaMapper.emptyStore) ∧
    (∀ c, fs = .present c → parse c = none →
      SchemaMapper.loadPromotedFixes parse fs = SchemaMapper.emptyStore) ∧
    (∀ c d, fs = .present c → c.length ≠ 0 → parse c = some d →
      SchemaMapper.loadPromotedFixes parse fs = d) := by
  refine ⟨?_, ?_, ?_, ?_⟩
  · intro h
    subst h
    rfl
  · intro c h hc
    subst h
    unfold SchemaMapper.loadPromotedFixes
    dsimp only
    rw [if_pos hc]
  · intro c h hp
    subst h
    unfold SchemaMapper.loadPromotedFixes
    dsimp only
    by_cases hc : c.length = 0
    · rw [if_pos hc]
    · rw [if_neg hc, hp]
  · intro c d h hc hp
    subst h
    unfold SchemaMapper.loadPromotedFixes
    dsimp only
    rw [if_neg hc, hp]

/-- Witness for C4: a concrete parser and concrete file states for each of
the four cases. -/
theorem C4_load_never_fails_witness :
    SchemaMapper.loadPromotedFixes
        (fun c => if c = "ok" then some ⟨some [("VAT#", "tax_id")], some []⟩ else none)
        .missing = SchemaMapper.emptyStore ∧
    SchemaMapper.loadPromotedFixes
        (fun c => if c = "ok" then some ⟨some [("VAT#", "tax_id")], some []⟩ else none)
        (.present "") = SchemaMapper.emptyStore ∧
    SchemaMapper.loadPromotedFixes
        (fun c => if c = "ok" then some ⟨some [("VAT#", "tax_id")], some []⟩ else none)
        (.present "notjson") = SchemaMapper.emptyStore ∧
    SchemaMapper.loadPromotedFixes
        (fun c => if c = "ok" then some ⟨some [("VAT#", "tax_id")], some []⟩ else none)
        (.present "ok") = ⟨some [("VAT#", "tax_id")], some []⟩ :=
  ⟨(C4_load_never_fails _ .missing).1 rfl,
   (C4_load_never_fails _ (.present "")).2.1 "" rfl (by decide),
   (C4_load_never_fails _ (.present "notjson")).2.2.1 "notjson" rfl (by decide),
   (C4_load_never_fails _ (.present "ok")).2.2.2 "ok" ⟨some [("VAT#", "tax_id")], some []⟩
     rfl (by decide) (by decide)⟩

/-- C5 (counterexample): `add_fix_rule` does *not* de-duplicate — called on a
store whose `fix_rules` already holds the identical rule, it appends a second
copy, so `fix_rules` does not stay unchanged. -/
theorem C5_counterexample :
    SchemaMapper.addFixRule
        (fun _ => some ⟨some [],
          some [⟨"email", "replace", "broken@", "broken@unknown.com", []⟩]⟩)
        (.present "store") "email" "replace" "broken@" "broken@unknown.com" [] =
      some ⟨some [],
        some [⟨"email", "replace", "broken@", "broken@unknown.com", []⟩,
              ⟨"email", "replace", "broken@", "broken@unknown.com", []⟩]⟩ ∧
    ([⟨"email", "replace", "broken@", "broken@unknown.com", []⟩,
      ⟨"email", "replace", "broken@", "broken@unknown.com", []⟩] :
        List SchemaMapper.FixRule) ≠
      [⟨"email", "replace", "broken@", "broken@unknown.com", []⟩] := by
  constructor
  · decide
  · decide

/-- C5 (amended): de-duplication by structural equality happens in the
app's promote handler, not in `add_fix_rule`: promoting only fixes whose
rules are already present leaves `fix_rules` unchanged. -/
theorem C5_promote_dedups (current applied : List SchemaMapper.AppRule)
    (h : ∀ r ∈ applied, r ∈ current) :
    SchemaMapper.promoteRules current applied = current := by
  induction applied with
  | nil => rfl
  | cons a rest ih =>
    unfold SchemaMapper.promoteRules
    rw [List.foldl_cons, if_pos (h a (by simp))]
    exact ih (fun r hr => h r (List.mem_cons_of_mem _ hr))

/-- Witness for C5 (amended) at a concrete store and rule. -/
theorem C5_promote_dedups_witness :
    (∀ r ∈ [(⟨"email", "email_format", "broken@", "broken@unknown.com"⟩ :
        SchemaMapper.AppRule)],
      r ∈ [(⟨"email", "email_format", "broken@", "broken@unknown.com"⟩ :
        SchemaMapper.AppRule)]) ∧
    SchemaMapper.promoteRules
        [⟨"email", "email_format", "broken@", "broken@unknown.com"⟩]
        [⟨"email", "email_format", "broken@", "broken@unknown.com"⟩] =
      [⟨"email", "email_format", "broken@", "broken@unknown.com"⟩] :=
  ⟨by decide,
   C5_promote_dedups _ _ (by decide)⟩

/-- C10: for every column of every dataframe for which `validate_dataframe`
selects a validation rule, the reported counters partition the rows:
`valid + invalid + null = total` and `total` is the number of rows. -/
theorem C10_validation_counts_partition {α : Type}
    (rules : List (String × (α → Bool))) (df : List (String × List (Option α)))
    (nRows : Nat) (hrect : ∀ c ∈ df, c.2.length = nRows)
    (e : String × SchemaMapper.ValidationCounts)
    (he : e ∈ SchemaMapper.validateDataframe rules df) :
    e.2.valid_count + e.2.invalid_count + e.2.null_count = e.2.total_count ∧
    e.2.total_count = nRows := by
  unfold SchemaMapper.validateDataframe at he
  rw [List.mem_filterMap] at he
  obtain ⟨nc, hnc, hmap⟩ := he
  rcases hr : SchemaMapper.findRuleFor rules (SchemaMapper.pyLowerStr nc.1)
    with _ | pred <;> rw [hr] at hmap
  · exact absurd hmap (by simp)
  · simp only [Option.map_some'] at hmap
    injection hmap with h'
    rw [← h']
    constructor
    · exact SchemaMapper.counts_partition pred nc.2
    · exact hrect nc (SchemaMapper.mem_dedupColumns hnc)

/-- Concrete evaluation of `validate_dataframe` on a small boolean column
(used by the C10 witness; the percentage needs `norm_num` because rational
normalisation does not reduce in the kernel). -/
theorem validateDataframe_concrete :
    SchemaMapper.validateDataframe [("email", fun v : Bool => v)]
        [("Email", [some true, none, some false, some true])] =
      [("Email", ⟨2, 1, 1, 4, 50⟩)] := by
  unfold SchemaMapper.validateDataframe SchemaMapper.dedupColumns SchemaMapper.findRuleFor
  simp only [List.not_mem_nil, if_false, List.filterMap_cons, List.filterMap_nil]
  rw [show SchemaMapper.isSubstrL ['e', 'm', 'a', 'i', 'l']
      (SchemaMapper.pyLowerStr "Email").data = true from by decide]
  simp only [if_pos, Option.map_some']
  unfold SchemaMapper.countsFor
  simp only [List.filter_cons, List.filter_nil, SchemaMapper.cellValid, Option.isNone_none,
    Option.isNone_some, Option.isSome_some, Option.isSome_none, Bool.and_true, Bool.and_false,
    Bool.not_true, Bool.not_false]
  norm_num
  intro a b hab
  rw [show SchemaMapper.dedupColumns ["Email"] ([] : List (String × List (Option Bool))) =
      [] from rfl] at hab
  cases hab

/-- Witness for C10: a concrete two-valid/one-invalid/one-null boolean column
selected by an `email` rule. -/
theorem C10_validation_counts_partition_witness :
    (∀ c ∈ [("Email", [some true, none, some false, some true])],
      c.2.length = 4) ∧
    ("Email", (⟨2, 1, 1, 4, 50⟩ : SchemaMapper.ValidationCounts)) ∈
      SchemaMapper.validateDataframe [("email", fun v : Bool => v)]
        [("Email", [some true, none, some false, some true])] ∧
    (2 + 1 + 1 = 4 ∧ 4 = 4) :=
  ⟨by decide, by rw [validateDataframe_concrete] ; exact List.mem_singleton.mpr rfl,
   C10_validation_counts_partition [("email", fun v : Bool => v)]
     [("Email", [some true, none, some false, some true])] 4 (by decide)
     ("Email", ⟨2, 1, 1, 4, 50⟩)
     (by rw [validateDataframe_concrete] ; exact List.mem_singleton.mpr rfl)⟩
